import Mathlib

/-!
# Verification of the pcg32 pseudorandom number generator (src/pcg32.h)

Shallow embedding of the PCG32 generator: `uint64_t` values are modelled as
`Nat` with explicit `% 2 ^ 64` wherever the C code wraps, and `uint32_t`
values as `Nat` with explicit `% 2 ^ 32`.  Stateful methods become functions
from the generator record to (result, new generator) pairs.  The unbounded
rejection-sampling loop and the shuffle loop that calls it take explicit fuel
and return an `Option`/result marker, so that non-termination and the
division-by-zero fault of `nextUInt(0)` are visible values.
-/

set_option maxRecDepth 10000

/-- The PCG32 generator record: `state` and `inc` are the two `uint64_t`
fields of `struct pcg32`. -/
structure pcg32 where
  state : Nat
  inc : Nat
deriving DecidableEq, Repr

/-- The LCG multiplier `6364136223846793005ULL` used throughout the source. -/
def PCG32_MULT : Nat := 6364136223846793005

/-- The 32-bit unsigned negation: the value of `-x` for a C `uint32_t x`. -/
def neg32 (x : Nat) : Nat := (2 ^ 32 - x % 2 ^ 32) % 2 ^ 32

/-- Source method `pcg32::nextUInt()`: captures `oldstate`, advances the LCG state modulo
`2 ^ 64`, and returns the XSH-RR output computed from `oldstate`. -/
def nextUInt (g : pcg32) : Nat × pcg32 :=
  let oldstate := g.state
  let state' := (oldstate * PCG32_MULT + g.inc) % 2 ^ 64
  let xorshifted := (((oldstate >>> 18) ^^^ oldstate) >>> 27) % 2 ^ 32
  let rot := (oldstate >>> 59) % 2 ^ 32
  ((xorshifted >>> rot) ||| ((xorshifted <<< (neg32 rot &&& 31)) % 2 ^ 32),
    { g with state := state' })

/-- Source method `pcg32::seed(initstate, initseq)`: zero the state, install the forced-odd
increment, and mix the state seed in with two discarded draws. -/
def pcg32.seed (initstate initseq : Nat) : pcg32 :=
  let g0 : pcg32 := { state := 0, inc := ((initseq <<< 1) % 2 ^ 64) ||| 1 }
  let g1 := (nextUInt g0).2
  let g2 : pcg32 := { g1 with state := (g1.state + initstate) % 2 ^ 64 }
  (nextUInt g2).2

/-- C `%` is a fault (not a value) when the divisor is zero. -/
def cMod (a b : Nat) : Option Nat :=
  if b = 0 then none else some (a % b)

/-- The rejection threshold `-bound % bound` of `pcg32::nextUInt(bound)`,
computed in 32-bit wraparound arithmetic; `none` is the divide-by-zero fault
for `bound = 0`. -/
def threshold32 (bound : Nat) : Option Nat :=
  cMod (neg32 bound) bound

/-- Result of a fuelled bounded draw: a value with the successor generator, a
division-by-zero fault, or fuel exhaustion (the source loop would still be
spinning). -/
inductive DrawResult where
  | ok (r : Nat) (g : pcg32)
  | fault
  | spin
deriving DecidableEq, Repr

/-- The `for (;;)` rejection loop of `pcg32::nextUInt(bound)`: draw `r`,
return `r % bound` once `r >= threshold`, otherwise retry. -/
def boundedLoop (threshold bound : Nat) : pcg32 → Nat → DrawResult
  | _, 0 => DrawResult.spin
  | g, fuel + 1 =>
    let p := nextUInt g
    if threshold ≤ p.1 then
      match cMod p.1 bound with
      | some v => DrawResult.ok v p.2
      | none => DrawResult.fault
    else boundedLoop threshold bound p.2 fuel

/-- Source method `pcg32::nextUInt(uint32_t bound)`: threshold computation followed by the
rejection loop. -/
def nextUIntBounded (g : pcg32) (bound : Nat) (fuel : Nat) : DrawResult :=
  match threshold32 bound with
  | none => DrawResult.fault
  | some t => boundedLoop t bound g fuel

/-- The `while (delta > 0)` loop of `pcg_advance_lcg_64`, returning the final
`(acc_mult, acc_plus)` pair; all arithmetic wraps modulo `2 ^ 64`. -/
def advLoop (delta cur_mult cur_plus acc_mult acc_plus : Nat) : Nat × Nat :=
  if h : delta = 0 then (acc_mult, acc_plus)
  else
    advLoop (delta / 2) ((cur_mult * cur_mult) % 2 ^ 64)
      (((cur_mult + 1) * cur_plus) % 2 ^ 64)
      (if delta % 2 = 1 then (acc_mult * cur_mult) % 2 ^ 64 else acc_mult)
      (if delta % 2 = 1 then (acc_plus * cur_mult + cur_plus) % 2 ^ 64 else acc_plus)
termination_by delta
decreasing_by exact Nat.div_lt_self (Nat.pos_of_ne_zero h) (by decide)

/-- Source method `pcg32::pcg_advance_lcg_64`: Brown's O(log delta) multi-step advance. -/
def pcg_advance_lcg_64 (state delta cur_mult cur_plus : Nat) : Nat :=
  let acc := advLoop delta cur_mult cur_plus 1 0
  (acc.1 * state + acc.2) % 2 ^ 64

/-- Source method `pcg32::advance(int64_t delta)`: the signed delta is reinterpreted as a
`uint64_t` (negative values wrap to `2 ^ 64 + delta`). -/
def pcg32.advance (g : pcg32) (delta : Int) : pcg32 :=
  { g with
    state := pcg_advance_lcg_64 g.state ((delta % (2 ^ 64 : Int)).toNat)
      PCG32_MULT g.inc }

/-- One application of the LCG state transition of `nextUInt`, as a function
on the whole record. -/
def stepGen (g : pcg32) : pcg32 := (nextUInt g).2

/-- The `n`-fold iteration of the single-step transition of `nextUInt`. -/
def stepGenN (g : pcg32) (n : Nat) : pcg32 := stepGen^[n] g

/-- C1: a `nextUInt` call sets the new state to
`oldstate * 6364136223846793005 + inc` modulo `2 ^ 64`, leaves `inc`
untouched, and returns `(xorshifted >> rot) | (xorshifted << ((-rot) & 31))`
in 32-bit arithmetic with `xorshifted = uint32(((oldstate >> 18) ^ oldstate) >> 27)`
and `rot = uint32(oldstate >> 59)`, everything computed from the
pre-transition state. -/
theorem nextUInt_step_spec (g : pcg32) :
    (nextUInt g).2.state = (g.state * 6364136223846793005 + g.inc) % 2 ^ 64 ∧
    (nextUInt g).2.inc = g.inc ∧
    (nextUInt g).1 =
      (((((g.state >>> 18) ^^^ g.state) >>> 27) % 2 ^ 32) >>>
          ((g.state >>> 59) % 2 ^ 32)) |||
        (((((g.state >>> 18) ^^^ g.state) >>> 27) % 2 ^ 32) <<<
          (neg32 ((g.state >>> 59) % 2 ^ 32) &&& 31)) % 2 ^ 32 :=
  ⟨rfl, rfl, rfl⟩

/-- The output of the `j`-th raw draw (0-based) starting from `g`. -/
def rawOut (g : pcg32) (j : Nat) : Nat := (nextUInt (stepGenN g j)).1

theorem stepGenN_zero (g : pcg32) : stepGenN g 0 = g := rfl

theorem stepGenN_succ (g : pcg32) (n : Nat) :
    stepGenN g (n + 1) = stepGenN (stepGen g) n := by
  simp [stepGenN, Function.iterate_succ_apply]

theorem stepGenN_succ' (g : pcg32) (n : Nat) :
    stepGenN g (n + 1) = stepGen (stepGenN g n) := by
  simp [stepGenN, Function.iterate_succ_apply']

theorem rawOut_succ (g : pcg32) (j : Nat) :
    rawOut g (j + 1) = rawOut (stepGen g) j := by
  simp [rawOut, stepGenN_succ]

theorem boundedLoop_ne_fault (t bound : Nat) (hb : bound ≠ 0) :
    ∀ fuel g, boundedLoop t bound g fuel ≠ DrawResult.fault := by
  intro fuel
  induction fuel with
  | zero => intro g; simp [boundedLoop]
  | succ n ih =>
    intro g
    simp only [boundedLoop]
    split
    · split
      · simp
      · next heq => simp [cMod, hb] at heq
    · exact ih _

theorem boundedLoop_ok (t bound : Nat) :
    ∀ fuel g r g', boundedLoop t bound g fuel = DrawResult.ok r g' →
      ∃ k, k < fuel ∧ (∀ j, j < k → rawOut g j < t) ∧ t ≤ rawOut g k ∧
        r = rawOut g k % bound ∧ g' = stepGenN g (k + 1) := by
  intro fuel
  induction fuel with
  | zero => intro g r g' h; simp [boundedLoop] at h
  | succ n ih =>
    intro g r g' h
    simp only [boundedLoop] at h
    split at h
    · next hle =>
      split at h
      · next v heq =>
        rw [cMod] at heq
        split at heq
        · exact absurd heq (by simp)
        · refine ⟨0, Nat.succ_pos n, by simp, hle, ?_, ?_⟩
          · cases h
            simp only [Option.some.injEq] at heq
            simp [rawOut, stepGenN_zero, ← heq]
          · cases h
            rfl
      · cases h
    · next hlt =>
      obtain ⟨k, hk, hall, hge, hr, hg'⟩ := ih _ _ _ h
      refine ⟨k + 1, by omega, ?_, ?_, ?_, ?_⟩
      · intro j hj
        match j with
        | 0 => simpa [rawOut, stepGenN_zero] using Nat.lt_of_not_le hlt
        | j + 1 => rw [rawOut_succ]; exact hall j (by omega)
      · rw [rawOut_succ]; exact hge
      · rw [rawOut_succ]; exact hr
      · rw [stepGenN_succ]; exact hg'

/-- C3: when `next_u32_bounded(bound)` with `bound > 0` returns `(r, g')`,
then `r < bound`, and the result is obtained by rejection sampling: the raw
draws before step `k` were all below the threshold and were discarded, the
draw at step `k` is the first one at or above the threshold, and
`r = rawOut g k % bound`. -/
theorem nextUIntBounded_range (g : pcg32) (bound fuel r : Nat) (g' : pcg32)
    (hb : 0 < bound)
    (h : nextUIntBounded g bound fuel = DrawResult.ok r g') :
    r < bound ∧
    ∃ t k, threshold32 bound = some t ∧ k < fuel ∧
      (∀ j, j < k → rawOut g j < t) ∧ t ≤ rawOut g k ∧
      r = rawOut g k % bound ∧ g' = stepGenN g (k + 1) := by
  rw [nextUIntBounded] at h
  split at h
  · cases h
  · next t heq =>
    obtain ⟨k, hk, hall, hge, hr, hg'⟩ := boundedLoop_ok t bound fuel g r g' h
    exact ⟨hr ▸ Nat.mod_lt _ hb, t, k, heq, hk, hall, hge, hr, hg'⟩

/-- Witness for C3 at the default generator with `bound = 3`, `fuel = 1`. -/
theorem nextUIntBounded_range_witness :
    (1 : Nat) < 3 ∧
    ∃ t k, threshold32 3 = some t ∧ k < 1 ∧
      (∀ j, j < k → rawOut ⟨0x853c49e6748fea9b, 0xda3e39cb94b95bdb⟩ j < t) ∧
      t ≤ rawOut ⟨0x853c49e6748fea9b, 0xda3e39cb94b95bdb⟩ k ∧
      (1 : Nat) = rawOut ⟨0x853c49e6748fea9b, 0xda3e39cb94b95bdb⟩ k % 3 ∧
      (⟨14425053563923168794, 0xda3e39cb94b95bdb⟩ : pcg32) =
        stepGenN ⟨0x853c49e6748fea9b, 0xda3e39cb94b95bdb⟩ (k + 1) :=
  nextUIntBounded_range ⟨0x853c49e6748fea9b, 0xda3e39cb94b95bdb⟩ 3 1 1
    ⟨14425053563923168794, 0xda3e39cb94b95bdb⟩ (by decide) (by decide)

/-- C5: for `1 ≤ bound < 2 ^ 32`, the threshold `-bound % bound` computed in
32-bit wraparound arithmetic equals the intended `2 ^ 32 % bound`. -/
theorem threshold32_eq (bound : Nat) (h1 : 1 ≤ bound) (h2 : bound < 2 ^ 32) :
    threshold32 bound = some (2 ^ 32 % bound) := by
  have hb0 : bound ≠ 0 := by omega
  have hmod : bound % 2 ^ 32 = bound := Nat.mod_eq_of_lt h2
  have hneg : neg32 bound = 2 ^ 32 - bound := by
    rw [neg32, hmod]
    exact Nat.mod_eq_of_lt (by omega)
  rw [threshold32, cMod, if_neg hb0, hneg]
  congr 1
  conv_rhs => rw [← Nat.sub_add_cancel (le_of_lt h2)]
  rw [Nat.add_mod_right]

/-- Witness for C5 at `bound = 3`. -/
theorem threshold32_eq_witness : threshold32 3 = some (2 ^ 32 % 3) :=
  threshold32_eq 3 (by decide) (by decide)

/-- C9: `next_u32_bounded(0)` is a division-by-zero fault (never a silently
returned value), and for every `bound > 0` no division or modulo by zero is
reachable anywhere in `next_u32_bounded`. -/
theorem nextUIntBounded_div_by_zero (g : pcg32) (fuel : Nat) :
    nextUIntBounded g 0 fuel = DrawResult.fault ∧
    (∀ bound, 0 < bound → nextUIntBounded g bound fuel ≠ DrawResult.fault) := by
  constructor
  · rfl
  · intro bound hb
    rw [nextUIntBounded]
    split
    · next heq => simp [threshold32, cMod] at heq; omega
    · exact boundedLoop_ne_fault _ bound (by omega) fuel g

/-! ### The LCG transition as a mathematical function, and Brown's advance -/

instance : NeZero ((2 : Nat) ^ 64) := ⟨by norm_num⟩

/-- One LCG step `s * m + p (mod 2 ^ 64)`; `nextUInt`'s state transition is
`lcgStep PCG32_MULT inc`. -/
def lcgStep (m p s : Nat) : Nat := (s * m + p) % 2 ^ 64

/-- The `n`-fold iteration of the LCG step. -/
def lcgIter (n m p s : Nat) : Nat := (lcgStep m p)^[n] s

/-- Geometric sum `1 + m + ... + m^(n-1)` (used for the closed form of the
iterated LCG). -/
def geom (m : Nat) : Nat → Nat
  | 0 => 0
  | n + 1 => 1 + m * geom m n

theorem lcgStep_lt (m p s : Nat) : lcgStep m p s < 2 ^ 64 :=
  Nat.mod_lt _ (by norm_num)

theorem cast64_mod (a : Nat) :
    ((a % 2 ^ 64 : Nat) : ZMod (2 ^ 64)) = (a : ZMod (2 ^ 64)) :=
  ZMod.natCast_mod a (2 ^ 64)

theorem eq64_of_cast {a b : Nat} (ha : a < 2 ^ 64) (hb : b < 2 ^ 64)
    (h : (a : ZMod (2 ^ 64)) = (b : ZMod (2 ^ 64))) : a = b := by
  have hv := congrArg ZMod.val h
  rwa [ZMod.val_cast_of_lt ha, ZMod.val_cast_of_lt hb] at hv

theorem cast_lcgStep (m p s : Nat) :
    ((lcgStep m p s : Nat) : ZMod (2 ^ 64)) =
      (s : ZMod (2 ^ 64)) * m + p := by
  rw [lcgStep, cast64_mod]
  push_cast
  ring

theorem lcgIter_zero (m p s : Nat) : lcgIter 0 m p s = s := rfl

theorem lcgIter_succ (n m p s : Nat) :
    lcgIter (n + 1) m p s = lcgIter n m p (lcgStep m p s) :=
  Function.iterate_succ_apply (lcgStep m p) n s

theorem lcgIter_succ' (n m p s : Nat) :
    lcgIter (n + 1) m p s = lcgStep m p (lcgIter n m p s) :=
  Function.iterate_succ_apply' (lcgStep m p) n s

theorem lcgIter_add (a b m p s : Nat) :
    lcgIter (a + b) m p s = lcgIter a m p (lcgIter b m p s) :=
  Function.iterate_add_apply (lcgStep m p) a b s

theorem lcgIter_lt (n m p s : Nat) (hs : s < 2 ^ 64) :
    lcgIter n m p s < 2 ^ 64 := by
  cases n with
  | zero => exact hs
  | succ n => rw [lcgIter_succ']; exact lcgStep_lt _ _ _

theorem lcgStep_sq (m p s : Nat) :
    lcgStep ((m * m) % 2 ^ 64) (((m + 1) * p) % 2 ^ 64) s =
      lcgStep m p (lcgStep m p s) := by
  apply eq64_of_cast (lcgStep_lt _ _ _) (lcgStep_lt _ _ _)
  rw [cast_lcgStep, cast_lcgStep, cast_lcgStep, cast64_mod, cast64_mod]
  push_cast
  ring

theorem lcgStep_fold (m p am ap s : Nat) :
    lcgStep ((am * m) % 2 ^ 64) ((ap * m + p) % 2 ^ 64) s =
      lcgStep m p (lcgStep am ap s) := by
  apply eq64_of_cast (lcgStep_lt _ _ _) (lcgStep_lt _ _ _)
  rw [cast_lcgStep, cast_lcgStep, cast_lcgStep, cast64_mod, cast64_mod]
  push_cast
  ring

theorem lcgIter_sq (k m p s : Nat) :
    lcgIter k ((m * m) % 2 ^ 64) (((m + 1) * p) % 2 ^ 64) s =
      lcgIter (2 * k) m p s := by
  induction k generalizing s with
  | zero => rfl
  | succ k ih =>
    have h2 : 2 * (k + 1) = (2 * k + 1) + 1 := by ring
    rw [lcgIter_succ, lcgStep_sq, ih, h2, lcgIter_succ, lcgIter_succ]

theorem advLoop_correct (delta : Nat) :
    ∀ cm cp am ap s,
      lcgStep (advLoop delta cm cp am ap).1 (advLoop delta cm cp am ap).2 s =
        lcgIter delta cm cp (lcgStep am ap s) := by
  induction delta using Nat.strong_induction_on with
  | _ delta ih =>
    intro cm cp am ap s
    rw [advLoop]
    split
    · next h => subst h; rfl
    · next h =>
      rw [ih (delta / 2) (Nat.div_lt_self (Nat.pos_of_ne_zero h) (by decide))]
      by_cases hodd : delta % 2 = 1
      · rw [if_pos hodd, if_pos hodd, lcgIter_sq, lcgStep_fold,
          ← lcgIter_succ]
        have : 2 * (delta / 2) + 1 = delta := by omega
        rw [this]
      · rw [if_neg hodd, if_neg hodd, lcgIter_sq]
        have : 2 * (delta / 2) = delta := by omega
        rw [this]

theorem pcg_advance_correct (s d m p : Nat) (hs : s < 2 ^ 64) :
    pcg_advance_lcg_64 s d m p = lcgIter d m p s := by
  have h := advLoop_correct d m p 1 0 s
  have h10 : lcgStep 1 0 s = s := by
    rw [lcgStep]
    simp only [Nat.mul_one, Nat.add_zero]
    exact Nat.mod_eq_of_lt hs
  rw [h10] at h
  rw [pcg_advance_lcg_64, ← h, lcgStep]
  congr 1
  ring

theorem stepGen_state (g : pcg32) :
    (stepGen g).state = lcgStep PCG32_MULT g.inc g.state ∧
      (stepGen g).inc = g.inc :=
  ⟨rfl, rfl⟩

theorem stepGenN_state (g : pcg32) (n : Nat) :
    (stepGenN g n).state = lcgIter n PCG32_MULT g.inc g.state ∧
      (stepGenN g n).inc = g.inc := by
  induction n with
  | zero => exact ⟨rfl, rfl⟩
  | succ n ih =>
    rw [stepGenN_succ']
    refine ⟨?_, ih.2⟩
    rw [lcgIter_succ', ← ih.1, ← ih.2]
    rfl

theorem pcg32_ext {a b : pcg32} (h1 : a.state = b.state) (h2 : a.inc = b.inc) :
    a = b := by
  cases a
  cases b
  simp_all

/-- C2: for a non-negative signed 64-bit delta `n`, `advance n` produces
exactly the generator obtained by iterating the single-step transition of
`nextUInt` `n` times with outputs discarded, and the draw after `advance n`
equals the `(n+1)`-th raw draw from the original generator. -/
theorem advance_eq_iterated (g : pcg32) (n : Nat) (hs : g.state < 2 ^ 64)
    (hn : n < 2 ^ 63) :
    g.advance (n : Int) = stepGenN g n ∧
    (nextUInt (g.advance (n : Int))).1 = rawOut g n := by
  have hcast : (((n : Int) % (2 ^ 64 : Int)).toNat) = n := by
    have h64 : (2 : Int) ^ 64 = 18446744073709551616 := by norm_num
    have h63 : (2 : Nat) ^ 63 = 9223372036854775808 := by norm_num
    rw [h64]
    rw [h63] at hn
    omega
  have hmain : g.advance (n : Int) = stepGenN g n := by
    apply pcg32_ext
    · show pcg_advance_lcg_64 g.state (((n : Int) % (2 ^ 64 : Int)).toNat)
        PCG32_MULT g.inc = (stepGenN g n).state
      rw [hcast, pcg_advance_correct _ _ _ _ hs, (stepGenN_state g n).1]
    · show g.inc = (stepGenN g n).inc
      exact ((stepGenN_state g n).2).symm
  exact ⟨hmain, by rw [hmain]; rfl⟩

/-- Witness for C2 at `state = 12345`, `inc = 99`, `n = 5`. -/
theorem advance_eq_iterated_witness :
    (⟨12345, 99⟩ : pcg32).advance ((5 : Nat) : Int) =
      stepGenN ⟨12345, 99⟩ 5 ∧
    (nextUInt ((⟨12345, 99⟩ : pcg32).advance ((5 : Nat) : Int))).1 =
      rawOut ⟨12345, 99⟩ 5 :=
  advance_eq_iterated ⟨12345, 99⟩ 5 (by norm_num) (by norm_num)

/-! ### Full-period property of the LCG and the advance inverse -/

theorem geom_add (m a b : Nat) :
    geom m (a + b) = geom m b + m ^ b * geom m a := by
  induction b with
  | zero => simp [geom]
  | succ b ih =>
    show geom m ((a + b) + 1) = _
    simp only [geom]
    rw [ih]
    ring

theorem geom_two_pow_dvd (m : Nat) (hm : m % 2 = 1) (k : Nat) :
    2 ^ k ∣ geom m (2 ^ k) := by
  induction k with
  | zero => simp [geom]
  | succ k ih =>
    have hg : geom m (2 ^ (k + 1)) = (1 + m ^ (2 ^ k)) * geom m (2 ^ k) := by
      rw [show (2 : Nat) ^ (k + 1) = 2 ^ k + 2 ^ k by ring, geom_add]
      ring
    rw [hg, pow_succ, Nat.mul_comm]
    have hoddpow : m ^ (2 ^ k) % 2 = 1 :=
      Nat.odd_iff.mp ((Nat.odd_iff.mpr hm).pow)
    have h2 : 2 ∣ (1 + m ^ (2 ^ k)) := by omega
    exact mul_dvd_mul h2 ih

theorem int_pow_two_pow_sub_one (m : Nat) (hm : m % 4 = 1) (k : Nat) :
    ((2 : Int) ^ (k + 2)) ∣ ((m : Int) ^ (2 ^ k) - 1) := by
  induction k with
  | zero =>
    have hm4 : (m : Int) % 4 = 1 := by omega
    have h1 : (m : Int) ^ (2 ^ 0) = m := by norm_num
    have h4 : (2 : Int) ^ (0 + 2) = 4 := by norm_num
    rw [h1, h4]
    omega
  | succ k ih =>
    have hmodd : (m : Int) % 2 = 1 := by omega
    have hodd : ((m : Int) ^ (2 ^ k)) % 2 = 1 :=
      Int.odd_iff.mp ((Int.odd_iff.mpr hmodd).pow)
    have hsq : (m : Int) ^ (2 ^ (k + 1)) = ((m : Int) ^ (2 ^ k)) ^ 2 := by
      rw [← pow_mul, pow_succ]
    have hfact : ((m : Int) ^ (2 ^ k)) ^ 2 - 1 =
        ((m : Int) ^ (2 ^ k) - 1) * ((m : Int) ^ (2 ^ k) + 1) := by ring
    rw [hsq, hfact]
    have h2 : (2 : Int) ∣ ((m : Int) ^ (2 ^ k) + 1) := by omega
    have hmul := mul_dvd_mul ih h2
    exact (show (2 : Int) ^ (k + 1 + 2) = 2 ^ (k + 2) * 2 by ring) ▸ hmul

theorem lcgIter_closed (n m p s : Nat) :
    ((lcgIter n m p s : Nat) : ZMod (2 ^ 64)) =
      (m : ZMod (2 ^ 64)) ^ n * s + p * geom m n := by
  induction n with
  | zero => simp [lcgIter_zero, geom]
  | succ n ih =>
    rw [lcgIter_succ', cast_lcgStep, ih]
    simp only [geom]
    push_cast
    ring

theorem lcgIter_period (m p s : Nat) (hm : m % 4 = 1) (hs : s < 2 ^ 64) :
    lcgIter (2 ^ 64) m p s = s := by
  apply eq64_of_cast (lcgIter_lt _ _ _ _ hs) hs
  rw [lcgIter_closed]
  have hgeom : ((geom m (2 ^ 64) : Nat) : ZMod (2 ^ 64)) = 0 :=
    (ZMod.natCast_zmod_eq_zero_iff_dvd _ _).mpr
      (geom_two_pow_dvd m (by omega) 64)
  have hdvd : (((2 : Nat) ^ 64 : Nat) : Int) ∣ ((m : Int) ^ (2 ^ 64) - 1) := by
    refine dvd_trans ?_ (int_pow_two_pow_sub_one m hm 64)
    push_cast
    exact ⟨4, by norm_num⟩
  have hpow : ((m : ZMod (2 ^ 64))) ^ ((2 : Nat) ^ 64) = 1 := by
    have hz := (ZMod.intCast_zmod_eq_zero_iff_dvd
      ((m : Int) ^ (2 ^ 64) - 1) (2 ^ 64)).mpr hdvd
    push_cast at hz
    exact sub_eq_zero.mp hz
  rw [hgeom, hpow, one_mul, mul_zero, add_zero]

/-- C6: for every signed 64-bit delta `n`, `advance n` followed by
`advance (-n)` restores the original `(state, inc)` pair exactly; the
backward jump goes "the long way round": `-n` is reinterpreted as the
unsigned value `2 ^ 64 - n`, and one full period of the LCG is the
identity. -/
theorem advance_advance_neg (g : pcg32) (n : Int) (hs : g.state < 2 ^ 64) :
    (g.advance n).advance (-n) = g := by
  have hstep1 : (g.advance n).state =
      lcgIter ((n % (2 ^ 64 : Int)).toNat) PCG32_MULT g.inc g.state :=
    pcg_advance_correct g.state _ PCG32_MULT g.inc hs
  have hlt : (g.advance n).state < 2 ^ 64 := by
    rw [hstep1]
    exact lcgIter_lt _ _ _ _ hs
  have hinc : (g.advance n).inc = g.inc := rfl
  have hstep2 : ((g.advance n).advance (-n)).state =
      lcgIter (((-n) % (2 ^ 64 : Int)).toNat) PCG32_MULT g.inc
        (g.advance n).state := by
    show pcg_advance_lcg_64 (g.advance n).state _ PCG32_MULT
      (g.advance n).inc = _
    rw [hinc]
    exact pcg_advance_correct _ _ _ _ hlt
  apply pcg32_ext
  · rw [hstep2, hstep1, ← lcgIter_add]
    have hsum : (((-n) % (2 ^ 64 : Int)).toNat) + ((n % (2 ^ 64 : Int)).toNat) = 0 ∨
        (((-n) % (2 ^ 64 : Int)).toNat) + ((n % (2 ^ 64 : Int)).toNat) = 2 ^ 64 := by
      have h64 : (2 : Int) ^ 64 = 18446744073709551616 := by norm_num
      have h64n : (2 : Nat) ^ 64 = 18446744073709551616 := by norm_num
      rw [h64, h64n]
      omega
    rcases hsum with h | h
    · rw [h]
      rfl
    · rw [h]
      exact lcgIter_period _ _ _ (by decide) hs
  · rfl

/-- Witness for C6 at `state = 7`, `inc = 3`, `n = 2`. -/
theorem advance_advance_neg_witness :
    ((⟨7, 3⟩ : pcg32).advance 2).advance (-2) = ⟨7, 3⟩ :=
  advance_advance_neg ⟨7, 3⟩ 2 (by norm_num)

/-! ### Seeding -/

/-- The seeding procedure exactly as the spec describes it: zero the state,
install the forced-odd increment, one discarded draw, add `initstate` modulo
`2 ^ 64`, one more discarded draw. -/
def seedDesc (initstate initseq : Nat) : pcg32 :=
  let a : pcg32 := { state := 0, inc := ((initseq <<< 1) % 2 ^ 64) ||| 1 }
  let b := stepGen a
  let c : pcg32 := { b with state := (b.state + initstate) % 2 ^ 64 }
  stepGen c

/-- C4: `seed(initstate, initseq)` produces exactly the configuration
described by the spec (zero state, forced-odd increment, discarded draw, add
`initstate`, discarded draw); afterwards the increment equals
`(initseq << 1) | 1` (in 64-bit arithmetic) and is odd for every
`initseq`. -/
theorem seed_spec (initstate initseq : Nat) :
    pcg32.seed initstate initseq = seedDesc initstate initseq ∧
    (pcg32.seed initstate initseq).inc = ((initseq <<< 1) % 2 ^ 64) ||| 1 ∧
    (pcg32.seed initstate initseq).inc % 2 = 1 := by
  refine ⟨rfl, rfl, ?_⟩
  show (((initseq <<< 1) % 2 ^ 64) ||| 1) % 2 = 1
  rw [Nat.mod_two_eq_one_iff_testBit_zero]
  simp [Nat.testBit_lor]

/-! ### Floating-point draws -/

/-- The binade shift used when rounding a value of `[2 ^ 24, 2 ^ 32)` to 24
significant bits: the unique `s` with `2 ^ (23 + s) ≤ n < 2 ^ (24 + s)`
(on the range the claims use it). -/
def floatShift (n : Nat) : Nat :=
  if n < 2 ^ 25 then 1 else if n < 2 ^ 26 then 2 else if n < 2 ^ 27 then 3
  else if n < 2 ^ 28 then 4 else if n < 2 ^ 29 then 5 else if n < 2 ^ 30 then 6
  else if n < 2 ^ 31 then 7 else 8

/-- Round-to-nearest-even of `n < 2 ^ 32` to 24 significant bits: the exact
value of the C cast `(float) n` of a `uint32_t` under IEEE-754 binary32 with
the default rounding mode. -/
def round24 (n : Nat) : Nat :=
  if n < 2 ^ 24 then n
  else
    let s := floatShift n
    let q := n / 2 ^ s
    let r := n % 2 ^ s
    if 2 ^ (s - 1) < r ∨ (r = 2 ^ (s - 1) ∧ q % 2 = 1) then (q + 1) * 2 ^ s
    else q * 2 ^ s

/-- Source method `pcg32::nextFloat()`: `ldexp((float) nextUInt(), -32)`.  For the values
arising here (multiples of `2 ^ -32` in `[0, 1]`) the `ldexp` scaling is
exact, so the returned float equals the rational `round24 r / 2 ^ 32` where
`r` is the raw 32-bit draw. -/
def nextFloat (g : pcg32) : ℚ × pcg32 :=
  ((round24 (nextUInt g).1 : ℚ) / 2 ^ 32, (nextUInt g).2)

/-- Source method `pcg32::nextDouble()`: `ldexp((double) nextUInt(), -32)`; the
`uint32 → double` conversion (53-bit mantissa) and the scaling are both
exact, so the result is exactly `r / 2 ^ 32`. -/
def nextDouble (g : pcg32) : ℚ × pcg32 :=
  (((nextUInt g).1 : ℚ) / 2 ^ 32, (nextUInt g).2)

theorem shiftRight_le_self (a b : Nat) : a >>> b ≤ a := by
  rw [Nat.shiftRight_eq_div_pow]
  exact Nat.div_le_self _ _

theorem nextUInt_lt (g : pcg32) : (nextUInt g).1 < 2 ^ 32 := by
  apply Nat.or_lt_two_pow
  · exact Nat.lt_of_le_of_lt (shiftRight_le_self _ _) (Nat.mod_lt _ (by norm_num))
  · exact Nat.mod_lt _ (by norm_num)

/-- The value of `nextDouble` always lies in `[0, 1)` (the `f64` half of the float-range
property does hold). -/
theorem nextDouble_range (g : pcg32) :
    0 ≤ (nextDouble g).1 ∧ (nextDouble g).1 < 1 := by
  constructor
  · show (0 : ℚ) ≤ ((nextUInt g).1 : ℚ) / 2 ^ 32
    positivity
  · show ((nextUInt g).1 : ℚ) / 2 ^ 32 < 1
    rw [div_lt_one (by positivity)]
    exact_mod_cast nextUInt_lt g

/-- C7 fails for `next_f32`: at the generator state `0x07fffe0000000000`
(with any increment) the raw draw is `0xffffffff`, whose conversion to
single precision rounds up to `2 ^ 32`, so `nextFloat` returns exactly
`1.0` — contradicting both the claim and the source's own doc comment
"value on the interval [0, 1)". -/
theorem nextFloat_returns_one : (nextFloat ⟨576458553280167936, 1⟩).1 = 1 := by
  show ((round24 (nextUInt ⟨576458553280167936, 1⟩).1 : ℚ)) / 2 ^ 32 = 1
  have h : round24 (nextUInt ⟨576458553280167936, 1⟩).1 = 4294967296 := by
    decide
  rw [h]
  norm_num

/-! ### Shuffle -/

/-- Source operation `std::iter_swap(begin + i, begin + j)` on a list; in `shuffle` both
indices are always in range. -/
def listSwap {α : Type} (l : List α) (i j : Nat) : List α :=
  if h : i < l.length ∧ j < l.length then
    (l.set i (l.get ⟨j, h.2⟩)).set j (l.get ⟨i, h.1⟩)
  else l

/-- The `for (it = end - 1; it > begin; --it)` loop of `pcg32::shuffle`,
counting the offset `i = it - begin` down to 1; each iteration swaps
position `i` with a bounded draw from `[0, i]`.  `fuel` bounds the inner
rejection loops; `none` reports an inner loop that was still spinning. -/
def shuffleLoop {α : Type} (fuel : Nat) : pcg32 → List α → Nat → Option (pcg32 × List α)
  | g, l, 0 => some (g, l)
  | g, l, i + 1 =>
    match nextUIntBounded g (i + 2) fuel with
    | DrawResult.ok k g' => shuffleLoop fuel g' (listSwap l (i + 1) k) i
    | _ => none

/-- Source method `pcg32::shuffle(begin, end)` on a list. -/
def pcg32.shuffle {α : Type} (fuel : Nat) (g : pcg32) (l : List α) :
    Option (pcg32 × List α) :=
  shuffleLoop fuel g l (l.length - 1)

theorem cons_set_perm {α : Type} :
    ∀ (xs : List α) (j : Nat) (h : j < xs.length) (x : α),
      List.Perm (xs.get ⟨j, h⟩ :: xs.set j x) (x :: xs) := by
  intro xs
  induction xs with
  | nil => intro j h x; exact absurd h (Nat.not_lt_zero j)
  | cons y ys ih =>
    intro j h x
    match j with
    | 0 => exact List.Perm.swap x y ys
    | j + 1 =>
      have h' : j < ys.length := by
        simp only [List.length_cons] at h
        omega
      show List.Perm (ys.get ⟨j, h'⟩ :: y :: ys.set j x) (x :: y :: ys)
      exact (List.Perm.swap y (ys.get ⟨j, h'⟩) (ys.set j x)).trans
        (((ih j h' x).cons y).trans (List.Perm.swap x y ys))

theorem set_set_perm {α : Type} :
    ∀ (l : List α) (i j : Nat) (hi : i < l.length) (hj : j < l.length),
      List.Perm ((l.set i (l.get ⟨j, hj⟩)).set j (l.get ⟨i, hi⟩)) l := by
  intro l
  induction l with
  | nil => intro i j hi _; exact absurd hi (Nat.not_lt_zero i)
  | cons x xs ih =>
    intro i j hi hj
    match i, j with
    | 0, 0 =>
      show List.Perm (x :: xs) (x :: xs)
      exact List.Perm.refl _
    | 0, j + 1 =>
      have hj' : j < xs.length := by
        simp only [List.length_cons] at hj
        omega
      show List.Perm (xs.get ⟨j, hj'⟩ :: xs.set j x) (x :: xs)
      exact cons_set_perm xs j hj' x
    | i + 1, 0 =>
      have hi' : i < xs.length := by
        simp only [List.length_cons] at hi
        omega
      show List.Perm (xs.get ⟨i, hi'⟩ :: xs.set i x) (x :: xs)
      exact cons_set_perm xs i hi' x
    | i + 1, j + 1 =>
      have hi' : i < xs.length := by
        simp only [List.length_cons] at hi
        omega
      have hj' : j < xs.length := by
        simp only [List.length_cons] at hj
        omega
      show List.Perm
        (x :: (xs.set i (xs.get ⟨j, hj'⟩)).set j (xs.get ⟨i, hi'⟩)) (x :: xs)
      exact (ih i j hi' hj').cons x

theorem listSwap_perm {α : Type} (l : List α) (i j : Nat) :
    List.Perm (listSwap l i j) l := by
  rw [listSwap]
  split
  · next h => exact set_set_perm l i j h.1 h.2
  · exact List.Perm.refl l

theorem shuffleLoop_perm {α : Type} (fuel : Nat) :
    ∀ (i : Nat) (g : pcg32) (l : List α) (g' : pcg32) (l' : List α),
      shuffleLoop fuel g l i = some (g', l') → List.Perm l' l := by
  intro i
  induction i with
  | zero =>
    intro g l g' l' h
    cases h
    exact List.Perm.refl l
  | succ i ih =>
    intro g l g' l' h
    simp only [shuffleLoop] at h
    split at h
    · next k g'' _ =>
      exact (ih _ _ _ _ h).trans (listSwap_perm l (i + 1) k)
    · exact Option.noConfusion h

/-- C8: whenever `shuffle` completes it returns a permutation of the input
list (the same multiset of elements), and a list of length at most 1 is
returned unchanged (with the generator untouched). -/
theorem shuffle_spec {α : Type} (fuel : Nat) (g g' : pcg32) (l l' : List α) :
    (pcg32.shuffle fuel g l = some (g', l') → List.Perm l' l) ∧
    (l.length ≤ 1 → pcg32.shuffle fuel g l = some (g, l)) := by
  constructor
  · intro h
    exact shuffleLoop_perm fuel (l.length - 1) g l g' l' h
  · intro hlen
    rw [pcg32.shuffle, show l.length - 1 = 0 from by omega]
    rfl

/-- Witness for C8: a concrete three-element shuffle that permutes, and a
one-element list that is a no-op. -/
theorem shuffle_spec_witness :
    List.Perm [10, 30, 20] [10, 20, 30] ∧
    pcg32.shuffle 5 (⟨1, 1⟩ : pcg32) [42] = some (⟨1, 1⟩, [42]) :=
  ⟨(shuffle_spec 5 ⟨0x853c49e6748fea9b, 0xda3e39cb94b95bdb⟩
      ⟨13821270098544127085, 0xda3e39cb94b95bdb⟩ [10, 20, 30] [10, 30, 20]).1
      (by decide),
    (shuffle_spec 5 (⟨1, 1⟩ : pcg32) ⟨1, 1⟩ [42] [42]).2 (by decide)⟩

/-! ### The increment is never written after construction/seeding -/

theorem nextUIntBounded_inc (g : pcg32) (bound fuel r : Nat) (gb : pcg32)
    (h : nextUIntBounded g bound fuel = DrawResult.ok r gb) :
    gb.inc = g.inc := by
  rw [nextUIntBounded] at h
  split at h
  · cases h
  · obtain ⟨k, _, _, _, _, hg⟩ := boundedLoop_ok _ bound fuel g r gb h
    rw [hg]
    exact (stepGenN_state g (k + 1)).2

theorem shuffleLoop_inc {α : Type} (fuel : Nat) :
    ∀ (i : Nat) (g : pcg32) (l : List α) (g' : pcg32) (l' : List α),
      shuffleLoop fuel g l i = some (g', l') → g'.inc = g.inc := by
  intro i
  induction i with
  | zero =>
    intro g l g' l' h
    cases h
    rfl
  | succ i ih =>
    intro g l g' l' h
    simp only [shuffleLoop] at h
    split at h
    · next k g'' heq =>
      rw [ih _ _ _ _ h]
      exact nextUIntBounded_inc g _ fuel k g'' heq
    · exact Option.noConfusion h

/-- C10: `inc` is left unchanged by `nextUInt`, `advance`, `nextFloat`,
`nextDouble`, bounded draws and `shuffle`; consequently once the increment
is odd it stays odd across every draw, advance, and shuffle. -/
theorem inc_frame {α : Type} (g gb gs : pcg32) (d : Int)
    (bound fuel r : Nat) (l ls : List α) :
    (nextUInt g).2.inc = g.inc ∧
    (g.advance d).inc = g.inc ∧
    (nextFloat g).2.inc = g.inc ∧
    (nextDouble g).2.inc = g.inc ∧
    (nextUIntBounded g bound fuel = DrawResult.ok r gb → gb.inc = g.inc) ∧
    (pcg32.shuffle fuel g l = some (gs, ls) → gs.inc = g.inc) ∧
    (g.inc % 2 = 1 →
      ((nextUInt g).2.inc % 2 = 1 ∧ (g.advance d).inc % 2 = 1 ∧
        (pcg32.shuffle fuel g l = some (gs, ls) → gs.inc % 2 = 1))) := by
  refine ⟨rfl, rfl, rfl, rfl, nextUIntBounded_inc g bound fuel r gb, ?_, ?_⟩
  · intro h
    exact shuffleLoop_inc fuel _ g l gs ls h
  · intro hodd
    refine ⟨hodd, hodd, ?_⟩
    intro h
    rw [shuffleLoop_inc fuel _ g l gs ls h]
    exact hodd

/-- Witness for C10 at the default generator, with a bounded draw and a
shuffle whose hypotheses are discharged concretely. -/
theorem inc_frame_witness :
    nextUIntBounded ⟨0x853c49e6748fea9b, 0xda3e39cb94b95bdb⟩ 3 5 =
      DrawResult.ok 1 ⟨14425053563923168794, 0xda3e39cb94b95bdb⟩ ∧
    (⟨14425053563923168794, 0xda3e39cb94b95bdb⟩ : pcg32).inc =
      (⟨0x853c49e6748fea9b, 0xda3e39cb94b95bdb⟩ : pcg32).inc ∧
    pcg32.shuffle 5 ⟨0x853c49e6748fea9b, 0xda3e39cb94b95bdb⟩ [10, 20, 30] =
      some (⟨13821270098544127085, 0xda3e39cb94b95bdb⟩, [10, 30, 20]) ∧
    (⟨13821270098544127085, 0xda3e39cb94b95bdb⟩ : pcg32).inc % 2 = 1 :=
  ⟨by decide,
    (inc_frame (α := Nat) ⟨0x853c49e6748fea9b, 0xda3e39cb94b95bdb⟩
      ⟨14425053563923168794, 0xda3e39cb94b95bdb⟩
      ⟨13821270098544127085, 0xda3e39cb94b95bdb⟩ 0 3 5 1
      [10, 20, 30] [10, 30, 20]).2.2.2.2.1 (by decide),
    by decide,
    ((inc_frame (α := Nat) ⟨0x853c49e6748fea9b, 0xda3e39cb94b95bdb⟩
      ⟨14425053563923168794, 0xda3e39cb94b95bdb⟩
      ⟨13821270098544127085, 0xda3e39cb94b95bdb⟩ 0 3 5 1
      [10, 20, 30] [10, 30, 20]).2.2.2.2.2.2 (by decide)).2.2 (by decide)⟩

/-- Witness for C9 at the default generator with `bound = 5`. -/
theorem nextUIntBounded_div_by_zero_witness :
    nextUIntBounded ⟨0x853c49e6748fea9b, 0xda3e39cb94b95bdb⟩ 0 2 =
      DrawResult.fault ∧
    nextUIntBounded ⟨0x853c49e6748fea9b, 0xda3e39cb94b95bdb⟩ 5 2 ≠
      DrawResult.fault :=
  ⟨(nextUIntBounded_div_by_zero ⟨0x853c49e6748fea9b, 0xda3e39cb94b95bdb⟩ 2).1,
    (nextUIntBounded_div_by_zero ⟨0x853c49e6748fea9b, 0xda3e39cb94b95bdb⟩ 2).2
      5 (by decide)⟩
